import Mathlib

/-!
Verification of the TriBoy inter-MCU command/response protocol core.

This file shallowly embeds the protocol code of the TriBoy repository
(src/cpu.c, src/apu.c, src/gpu/gpu_main.c, src/TriBoySimple/...) in Lean and
proves properties of the command queues, the acknowledgment router, the
clock-sync codec, the error-code enumerations, the health-check ping and the
slave receive path.  Machine integers are modelled as Nat; where the C code
relies on 8-bit truncation the reduction modulo 256 is written explicitly.
-/

namespace TriBoy

/-! ## Protocol constants (src/apu.c lines 117-118, src/triboy_commands.h) -/

/-- COMMAND_TIMEOUT_MS from src/apu.c line 117: 50 ms timeout for a command
response. -/
def COMMAND_TIMEOUT_MS : Nat := 50

/-- MAX_RETRIES from src/apu.c line 118. -/
def MAX_RETRIES : Nat := 3

/-- GPU_CMD_NOP and APU_CMD_NOP from src/triboy_commands.h (both 0x00),
and CMD_NOP from src/TriBoySimple/common.h. -/
def CMD_NOP : Nat := 0x00

/-- CMD_ACK from src/TriBoySimple/common.h: positive acknowledgment opcode. -/
def CMD_ACK : Nat := 0xFA

/-- CMD_VSYNC from src/TriBoySimple/common.h: in-band VSYNC opcode. -/
def CMD_VSYNC : Nat := 0xFB

/-! ## Clock synchronization codec

Master side: send_clock_sync in src/cpu.c lines 156-199 builds a 10-byte
packet.  Slave side: process_clock_sync_command in src/apu.c lines 52-86
extracts the frame counter and timestamp from the payload pointer. -/

/-- Packet built by send_clock_sync (src/cpu.c lines 161-172): opcode 0xF1,
length byte 10, the four frame-counter bytes (shifts 24,16,8,0) and four
timestamp bytes (shifts 32,24,16,8).  Each C expression (x >> k) & 0xFF is
written x / 2 ^ k % 256. -/
def send_clock_sync_packet (frame ts : Nat) : List Nat :=
  [0xF1, 10,
   frame / 2 ^ 24 % 256, frame / 2 ^ 16 % 256, frame / 2 ^ 8 % 256, frame % 256,
   ts / 2 ^ 32 % 256, ts / 2 ^ 24 % 256, ts / 2 ^ 16 % 256, ts / 2 ^ 8 % 256]

/-- Frame counter extracted by process_clock_sync_command (src/apu.c lines
54-58) from payload bytes data[0..3].  Out-of-range reads return 0. -/
def clock_sync_frame (d : List Nat) : Nat :=
  d.getD 0 0 * 2 ^ 24 + d.getD 1 0 * 2 ^ 16 + d.getD 2 0 * 2 ^ 8 + d.getD 3 0

/-- Timestamp extracted by process_clock_sync_command (src/apu.c lines 60-65)
from payload bytes data[4..8]: five bytes at shifts 32,24,16,8,0.  Note the
read of data[8] is the ninth payload byte. -/
def clock_sync_timestamp (d : List Nat) : Nat :=
  d.getD 4 0 * 2 ^ 32 + d.getD 5 0 * 2 ^ 24 + d.getD 6 0 * 2 ^ 16 +
    d.getD 7 0 * 2 ^ 8 + d.getD 8 0

/-! ## Error-code enumerations -/

/-- ErrorCode enum from src/cpu.c lines 487-496 (also used by src/apu.c's
fault handling). -/
inductive CpuErrorCode
  | errNone
  | errTimeout
  | errInvalidCommand
  | errMemoryFull
  | errInvalidParameter
  | errDeviceBusy
  | errCommunicationFailure
  | errSyncLost
  deriving Repr, DecidableEq

/-- Numeric values assigned by the enum in src/cpu.c lines 487-496. -/
def cpuErrorCodeVal : CpuErrorCode → Nat
  | .errNone => 0
  | .errTimeout => 1
  | .errInvalidCommand => 2
  | .errMemoryFull => 3
  | .errInvalidParameter => 4
  | .errDeviceBusy => 5
  | .errCommunicationFailure => 6
  | .errSyncLost => 7

/-- ErrorCode enum from src/TriBoySimple/common.h lines 77-84. -/
inductive SimpleErrorCode
  | errNone
  | errTimeout
  | errInvalidCommand
  | errInvalidParams
  | errBusy
  deriving Repr, DecidableEq

/-- Numeric values assigned by the enum in src/TriBoySimple/common.h. -/
def simpleErrorCodeVal : SimpleErrorCode → Nat
  | .errNone => 0
  | .errTimeout => 1
  | .errInvalidCommand => 2
  | .errInvalidParams => 3
  | .errBusy => 4

/-! ## Health-check ping (src/cpu.c lines 620-646) -/

/-- The two bytes written to the slave by check_device_health (src/cpu.c line
622): opcode 0xF0 with length byte 2. -/
def check_device_health_ping : List Nat := [0xF0, 2]

/-- Health verdict of check_device_health (src/cpu.c line 639): the single
response byte must equal 0xAA. -/
def check_device_health_success (response : Nat) : Bool := response == 0xAA

/-! ## Master response dispatch -/

/-- Possible routings of a 4-byte inbound response on the master. -/
inductive CpuResponseAction
  | ackRoute
  | errorRoute
  | ignored
  deriving Repr, DecidableEq

/-- Dispatch performed by check_for_device_responses (src/cpu.c lines
445-483) on the first byte of a 4-byte response: 0xFA goes to
process_ack_packet, 0xFE to process_error_packet, anything else falls through
with no action. -/
def check_for_device_responses_dispatch (response : List Nat) : CpuResponseAction :=
  if response.getD 0 0 == 0xFA then .ackRoute
  else if response.getD 0 0 == 0xFE then .errorRoute
  else .ignored

/-- Possible outcomes of process_gpu_response in src/TriBoySimple/simple_cpu.c. -/
inductive SimpleGpuResponseAction
  | ackHandled
  | vsyncRaised
  | unknownLogged
  deriving Repr, DecidableEq

/-- Dispatch performed by process_gpu_response (src/TriBoySimple/simple_cpu.c
lines 246-282): CMD_ACK is reported, CMD_VSYNC sets the vsync_received frame
event, anything else is logged as unknown.  The two argument bytes are not
inspected for the VSYNC case. -/
def simple_process_gpu_response (response : List Nat) : SimpleGpuResponseAction :=
  if response.getD 0 0 == CMD_ACK then .ackHandled
  else if response.getD 0 0 == CMD_VSYNC then .vsyncRaised
  else .unknownLogged

/-! ## Slave receive path (src/TriBoySimple/simple_gpu.c lines 50-86 and
src/gpu/gpu_main.c lines 460-476)

Both slave main loops read a 2-byte header, read length-2 further payload
bytes only when length exceeds 2, and then unconditionally call
process_command with a third argument of length-2; that argument is a uint8_t
parameter, so the int expression length-2 is truncated modulo 256, which for
length below 2 wraps around to 254 or 255. -/

/-- Result of one slave receive transaction: how many payload bytes were
clocked after the header, and the dispatched (opcode, payload-count) pair. -/
structure SlaveReceive where
  consumed_payload : Nat
  dispatched : Option (Nat × Nat)
  deriving Repr, DecidableEq

/-- Receive step of the simple GPU main loop (src/TriBoySimple/simple_gpu.c
lines 50-86) for header bytes cmd_id and length, both already reduced
modulo 256 by the 8-bit reads. -/
def simple_gpu_receive (cmd_id length : Nat) : SlaveReceive :=
  { consumed_payload := if length > 2 then length - 2 else 0,
    dispatched := some (cmd_id, (length + 254) % 256) }

/-- Receive step of the expanded GPU main loop (src/gpu/gpu_main.c lines
460-476); identical header handling and unconditional dispatch. -/
def gpu_main_receive (cmd_id length : Nat) : SlaveReceive :=
  { consumed_payload := if length > 2 then length - 2 else 0,
    dispatched := some (cmd_id, (length + 254) % 256) }

/-! ## Plain command queue (src/cpu.c lines 214-404)

The Command struct stores an opcode, a total length and up to 254 payload
bytes; the payload is modelled as the list of the length-2 meaningful bytes
(the C array keeps stale bytes past that count, which are never transmitted). -/

/-- Command from src/cpu.c lines 216-220. -/
structure Command where
  command_id : Nat
  length : Nat
  data : List Nat
  deriving Repr, DecidableEq, Inhabited

/-- CommandQueue from src/cpu.c lines 223-230: a bounded ring with slot array,
capacity, head, tail and count (the mutex is not modelled; each operation is
one critical section). -/
structure CommandQueue where
  commands : List Command
  capacity : Nat
  head : Nat
  tail : Nat
  count : Nat
  deriving Repr, DecidableEq

/-- Bytes handed to spi_write_blocking for a queued command: the drain loops
build buffer[0]=id, buffer[1]=length, then the length-2 payload bytes, and
write exactly length bytes of that buffer. -/
def commandWireBytes (c : Command) : List Nat :=
  ([c.command_id, c.length] ++ c.data).take c.length

/-- queue_gpu_command from src/cpu.c lines 261-286 (queue_apu_command at lines
289-314 is identical on the other ring): fails when count has reached
capacity, otherwise writes the command at the tail slot and advances tail and
count.  The C only copies payload when length exceeds 2; data is modelled as
the first length-2 input bytes (take of a Nat subtraction, hence empty for
length at most 2). -/
def queue_gpu_command (q : CommandQueue) (cmd_id length : Nat) (data : List Nat) :
    CommandQueue × Bool :=
  if q.count ≥ q.capacity then (q, false)
  else
    ({ q with
        commands := q.commands.set q.tail
          { command_id := cmd_id, length := length, data := data.take (length - 2) },
        tail := (q.tail + 1) % q.capacity,
        count := q.count + 1 }, true)

/-- One iteration of the drain loop of process_gpu_queue (src/cpu.c lines
317-359; process_apu_queue at 362-404 is identical): when the queue is
nonempty, the head command is copied into the transfer buffer, head advances,
count decrements, and the command bytes are clocked out.  Returns the sent
bytes, if any. -/
def process_gpu_queue_step (q : CommandQueue) : CommandQueue × Option (List Nat) :=
  if q.count = 0 then (q, none)
  else
    let cmd := q.commands.getD q.head default
    ({ q with head := (q.head + 1) % q.capacity, count := q.count - 1 },
     some (commandWireBytes cmd))

/-! ## Enhanced command queue (src/apu.c lines 94-153 and 328-437)

EnhancedCommand adds the acknowledgment-tracking fields of the spec's
QueuedCommand: requires_ack, enqueue timestamp, retry count and completed. -/

/-- EnhancedCommand from src/apu.c lines 94-102. -/
structure EnhancedCommand where
  command_id : Nat
  length : Nat
  data : List Nat
  requires_ack : Bool
  timestamp : Nat
  retry_count : Nat
  completed : Bool
  deriving Repr, DecidableEq, Inhabited

/-- EnhancedCommandQueue from src/apu.c lines 104-113 (device_id omitted: it
only selects the SPI port of the transmit, not the queue behaviour). -/
structure EnhancedCommandQueue where
  commands : List EnhancedCommand
  capacity : Nat
  head : Nat
  tail : Nat
  count : Nat
  pending_acks : Nat
  deriving Repr, DecidableEq

/-- Bytes handed to spi_write_blocking for an enhanced command (buffer built
at src/apu.c lines 357-360 and 404-407). -/
def enhancedWireBytes (c : EnhancedCommand) : List Nat :=
  ([c.command_id, c.length] ++ c.data).take c.length

/-- queue_command_with_ack from src/apu.c lines 121-153: fails when full,
otherwise stores the command at the tail with retry_count 0, timestamp now and
completed false, bumps pending_acks when acknowledgment is required, and
advances tail and count.  The C memcpy of length-2 bytes is modelled as take
of a Nat subtraction (the C expression underflows for length below 2; no
caller passes such a length). -/
def queue_command_with_ack (q : EnhancedCommandQueue) (cmd_id length : Nat)
    (data : List Nat) (needs_ack : Bool) (now : Nat) :
    EnhancedCommandQueue × Bool :=
  if q.count ≥ q.capacity then (q, false)
  else
    ({ q with
        commands := q.commands.set q.tail
          { command_id := cmd_id, length := length, data := data.take (length - 2),
            requires_ack := needs_ack, timestamp := now, retry_count := 0,
            completed := false },
        pending_acks := if needs_ack then q.pending_acks + 1 else q.pending_acks,
        tail := (q.tail + 1) % q.capacity,
        count := q.count + 1 }, true)

/-- Observable outcome of one drain-loop iteration. -/
inductive DrainEvent
  | sent (bytes : List Nat)
  | retired (cmd_id : Nat)
  | idle
  deriving Repr, DecidableEq

/-- One iteration of the drain loop of process_enhanced_queue (src/apu.c
lines 328-437).  With a nonempty queue and a head command that requires an
acknowledgment and is not completed: past the 50 ms timeout it is either
resent with retry_count incremented and timestamp refreshed (below
MAX_RETRIES) or retired with an error log and removed; within the window the
loop breaks.  A completed or no-acknowledgment head command is transmitted and
removed, decrementing pending_acks when it was an acknowledged command. -/
def process_enhanced_queue_step (q : EnhancedCommandQueue) (now : Nat) :
    EnhancedCommandQueue × DrainEvent :=
  if q.count = 0 then (q, .idle)
  else
    let cmd := q.commands.getD q.head default
    if cmd.requires_ack && !cmd.completed then
      if now - cmd.timestamp > COMMAND_TIMEOUT_MS then
        if cmd.retry_count < MAX_RETRIES then
          ({ q with
              commands := q.commands.set q.head
                { cmd with retry_count := cmd.retry_count + 1, timestamp := now } },
           .sent (enhancedWireBytes cmd))
        else
          ({ q with head := (q.head + 1) % q.capacity, count := q.count - 1,
                    pending_acks := q.pending_acks - 1 },
           .retired cmd.command_id)
      else (q, .idle)
    else
      ({ q with head := (q.head + 1) % q.capacity, count := q.count - 1,
                pending_acks :=
                  if cmd.completed && cmd.requires_ack then q.pending_acks - 1
                  else q.pending_acks },
       .sent (enhancedWireBytes cmd))

/-! ## Master acknowledgment router (src/cpu.c lines 408-443) -/

/-- Match condition of the scan in process_ack_packet (src/cpu.c line 423):
same opcode, requires acknowledgment, not yet completed. -/
def ackMatches (cmd_id : Nat) (c : EnhancedCommand) : Bool :=
  c.command_id == cmd_id && c.requires_ack && !c.completed

/-- The ring scan of process_ack_packet: starting at index idx, visit n
logical entries advancing modulo the capacity; the first matching entry is
marked completed and the scan stops, otherwise the slots are returned
unchanged. -/
def ack_scan (cmds : List EnhancedCommand) (cap cmd_id : Nat) :
    Nat → Nat → List EnhancedCommand
  | _, 0 => cmds
  | idx, n + 1 =>
    let c := cmds.getD idx default
    if ackMatches cmd_id c then cmds.set idx { c with completed := true }
    else ack_scan cmds cap cmd_id ((idx + 1) % cap) n

/-- process_ack_packet from src/cpu.c lines 408-443: extracts the original
opcode from packet byte 2 (the status byte 3 is read but unused) and scans the
queue from head over count entries for the oldest incomplete acknowledged
command with that opcode, marking it completed; a miss is only logged. -/
def process_ack_packet (q : EnhancedCommandQueue) (packet : List Nat) :
    EnhancedCommandQueue :=
  { q with commands := ack_scan q.commands q.capacity (packet.getD 2 0) q.head q.count }

/-! ## Ring-buffer window and well-formedness -/

/-- The logical content of a ring: n slots starting at index idx, advancing
modulo cap. -/
def windowAux {α : Type} [Inhabited α] (xs : List α) (cap idx : Nat) : Nat → List α
  | 0 => []
  | n + 1 => xs.getD (idx % cap) default :: windowAux xs cap ((idx + 1) % cap) n

/-- Logical head-to-tail content of a plain command queue. -/
def CommandQueue.window (q : CommandQueue) : List Command :=
  windowAux q.commands q.capacity q.head q.count

/-- Logical head-to-tail content of an enhanced command queue. -/
def EnhancedCommandQueue.window (q : EnhancedCommandQueue) : List EnhancedCommand :=
  windowAux q.commands q.capacity q.head q.count

/-- Structural ring invariant of a plain command queue. -/
def CommandQueue.WF (q : CommandQueue) : Prop :=
  0 < q.capacity ∧ q.commands.length = q.capacity ∧ q.count ≤ q.capacity ∧
    q.head < q.capacity ∧ q.tail < q.capacity ∧
    q.tail = (q.head + q.count) % q.capacity

/-- Structural ring invariant of an enhanced command queue. -/
def EnhancedCommandQueue.WF (q : EnhancedCommandQueue) : Prop :=
  0 < q.capacity ∧ q.commands.length = q.capacity ∧ q.count ≤ q.capacity ∧
    q.head < q.capacity ∧ q.tail < q.capacity ∧
    q.tail = (q.head + q.count) % q.capacity

instance (q : CommandQueue) : Decidable q.WF := by
  unfold CommandQueue.WF; infer_instance

instance (q : EnhancedCommandQueue) : Decidable q.WF := by
  unfold EnhancedCommandQueue.WF; infer_instance

/-! ## Ring-index arithmetic -/

lemma mod_index_inj {cap i j idx : Nat} (hi : i < cap) (hj : j < cap)
    (h : (idx + i) % cap = (idx + j) % cap) : i = j := by
  have h' : i % cap = j % cap := Nat.ModEq.add_left_cancel' idx h
  rwa [Nat.mod_eq_of_lt hi, Nat.mod_eq_of_lt hj] at h'

lemma mod_shift (idx i cap : Nat) :
    ((idx + 1) % cap + i) % cap = (idx + (i + 1)) % cap := by
  rw [Nat.mod_add_mod]
  congr 1
  omega

/-! ## Window lemmas -/

section WindowLemmas

variable {α : Type} [Inhabited α]

lemma windowAux_cons (xs : List α) (cap idx n : Nat) :
    windowAux xs cap idx (n + 1)
      = xs.getD (idx % cap) default :: windowAux xs cap ((idx + 1) % cap) n := rfl

lemma windowAux_succ_back (xs : List α) (cap : Nat) (idx n : Nat) :
    windowAux xs cap idx (n + 1)
      = windowAux xs cap idx n ++ [xs.getD ((idx + n) % cap) default] := by
  induction n generalizing idx with
  | zero => simp [windowAux]
  | succ n ih =>
    rw [windowAux_cons, ih ((idx + 1) % cap), windowAux_cons, mod_shift]
    simp [windowAux]

lemma windowAux_set_ne (xs : List α) (cap idx j n : Nat) (x : α)
    (h : ∀ i < n, (idx + i) % cap ≠ j) :
    windowAux (xs.set j x) cap idx n = windowAux xs cap idx n := by
  induction n generalizing idx with
  | zero => rfl
  | succ n ih =>
    have h0 : j ≠ idx % cap := by
      have := h 0 (Nat.succ_pos n)
      simpa [Ne, eq_comm] using this
    rw [windowAux_cons, windowAux_cons,
        List.getD_eq_getElem?_getD, List.getElem?_set_ne h0,
        ← List.getD_eq_getElem?_getD]
    congr 1
    exact ih ((idx + 1) % cap) fun i hi => by
      rw [mod_shift]
      exact h (i + 1) (Nat.succ_lt_succ hi)

lemma windowAux_set_head (xs : List α) (cap idx n : Nat) (x : α)
    (hlen : xs.length = cap) (hn : n + 1 ≤ cap) (hidx : idx < cap) :
    windowAux (xs.set idx x) cap idx (n + 1)
      = x :: windowAux xs cap ((idx + 1) % cap) n := by
  have hidx' : idx % cap = idx := Nat.mod_eq_of_lt hidx
  rw [windowAux_cons, hidx']
  congr 1
  · rw [List.getD_eq_getElem?_getD, List.getElem?_set_self (by omega)]
    rfl
  · exact windowAux_set_ne xs cap _ idx n x fun i hi => by
      rw [mod_shift]
      intro hcontra
      have hh : (idx + (i + 1)) % cap = (idx + 0) % cap := by
        simpa [hidx'] using hcontra
      have : i + 1 = 0 := mod_index_inj (by omega) (by omega) hh
      omega

end WindowLemmas

/-! ## Acknowledgment scan characterization -/

/-- Specification counterpart of the ack scan on the logical queue content:
mark the first matching entry completed, leave everything else as is. -/
def listComplete (c : Nat) : List EnhancedCommand → List EnhancedCommand
  | [] => []
  | e :: rest =>
    if ackMatches c e then { e with completed := true } :: rest
    else e :: listComplete c rest

lemma listComplete_of_nomatch (c : Nat) (l : List EnhancedCommand)
    (h : ∀ e ∈ l, ackMatches c e = false) : listComplete c l = l := by
  induction l with
  | nil => rfl
  | cons e rest ih =>
    rw [listComplete, h e (List.mem_cons_self e rest)]
    simp only [Bool.false_eq_true, if_false]
    rw [ih fun x hx => h x (List.mem_cons_of_mem e hx)]

lemma listComplete_decomp (c : Nat) (l1 l2 : List EnhancedCommand)
    (e : EnhancedCommand) (h1 : ∀ x ∈ l1, ackMatches c x = false)
    (he : ackMatches c e = true) :
    listComplete c (l1 ++ e :: l2) = l1 ++ { e with completed := true } :: l2 := by
  induction l1 with
  | nil => simp [listComplete, he]
  | cons x l1 ih =>
    rw [List.cons_append, listComplete, h1 x (List.mem_cons_self x l1)]
    simp only [Bool.false_eq_true, if_false, List.cons_append]
    rw [ih fun y hy => h1 y (List.mem_cons_of_mem x hy)]

lemma ack_scan_nomatch (cmds : List EnhancedCommand) (cap c idx n : Nat)
    (hidx : idx < cap)
    (h : ∀ e ∈ windowAux cmds cap idx n, ackMatches c e = false) :
    ack_scan cmds cap c idx n = cmds := by
  induction n generalizing idx with
  | zero => rfl
  | succ n ih =>
    have hidx' : idx % cap = idx := Nat.mod_eq_of_lt hidx
    have hhead : ackMatches c (cmds.getD idx default) = false := by
      have := h (cmds.getD (idx % cap) default) (by rw [windowAux_cons]; exact List.mem_cons_self _ _)
      rwa [hidx'] at this
    rw [ack_scan]
    simp only [hhead, Bool.false_eq_true, if_false]
    exact ih ((idx + 1) % cap) (Nat.mod_lt _ (by omega)) fun e he => by
      refine h e ?_
      rw [windowAux_cons]
      exact List.mem_cons_of_mem _ he

lemma ack_scan_spec (cmds : List EnhancedCommand) (cap c : Nat) (n idx : Nat)
    (hlen : cmds.length = cap) (hn : n ≤ cap) (hidx : idx < cap) :
    windowAux (ack_scan cmds cap c idx n) cap idx n
        = listComplete c (windowAux cmds cap idx n)
      ∧ (∀ j, (∀ i < n, (idx + i) % cap ≠ j) →
          (ack_scan cmds cap c idx n).getD j default = cmds.getD j default)
      ∧ (ack_scan cmds cap c idx n).length = cmds.length := by
  induction n generalizing idx with
  | zero => exact ⟨rfl, fun j _ => rfl, rfl⟩
  | succ n ih =>
    have hidx' : idx % cap = idx := Nat.mod_eq_of_lt hidx
    by_cases hm : ackMatches c (cmds.getD idx default) = true
    · -- first scanned entry matches: single set at idx
      rw [ack_scan]
      simp only [hm, if_true]
      refine ⟨?_, ?_, List.length_set _ _ _⟩
      · rw [windowAux_set_head _ _ _ _ _ hlen hn hidx, windowAux_cons, hidx',
            listComplete]
        rw [List.getD_eq_getElem?_getD] at hm
        simp [hm]
      · intro j hj
        have h0 : j ≠ idx := by
          have := hj 0 (Nat.succ_pos n)
          simp only [Nat.add_zero, hidx'] at this
          exact fun hc => this hc.symm
        rw [List.getD_eq_getElem?_getD, List.getElem?_set_ne (Ne.symm h0),
            ← List.getD_eq_getElem?_getD]
    · -- head does not match: recurse past it
      have hm' : ackMatches c (cmds.getD idx default) = false := by
        simpa using hm
      rw [ack_scan]
      simp only [hm', Bool.false_eq_true, if_false]
      have hrec := ih ((idx + 1) % cap) (by omega) (Nat.mod_lt _ (by omega))
      obtain ⟨hwin, hframe, hlen'⟩ := hrec
      have hexc : ∀ i < n, ((idx + 1) % cap + i) % cap ≠ idx := by
        intro i hi
        rw [mod_shift]
        intro hcontra
        have hh : (idx + (i + 1)) % cap = (idx + 0) % cap := by
          simpa [hidx'] using hcontra
        have : i + 1 = 0 := mod_index_inj (by omega) (by omega) hh
        omega
      refine ⟨?_, ?_, hlen'⟩
      · rw [windowAux_cons, windowAux_cons, hidx', hwin,
            hframe idx hexc, listComplete]
        rw [List.getD_eq_getElem?_getD] at hm'
        simp [hm']
      · intro j hj
        refine (hframe j ?_).trans rfl
        intro i hi
        rw [mod_shift]
        exact hj (i + 1) (Nat.succ_lt_succ hi)

/-! ## Enqueue appends at the tail of the logical window -/

lemma window_set_tail_append {α : Type} [Inhabited α] (xs : List α)
    (cap head count : Nat) (x : α) (hlen : xs.length = cap)
    (hhead : head < cap) (hcount : count < cap) :
    windowAux (xs.set ((head + count) % cap) x) cap head (count + 1)
      = windowAux xs cap head count ++ [x] := by
  rw [windowAux_succ_back]
  congr 1
  · exact windowAux_set_ne xs cap head _ count x fun i hi hcontra =>
      absurd (mod_index_inj (by omega) hcount hcontra) (by omega)
  · rw [List.getD_eq_getElem?_getD,
        List.getElem?_set_self (by rw [hlen]; exact Nat.mod_lt _ (by omega))]
    rfl

/-! ## Ghost-identified trace model of the enhanced queue

To state ordering and retransmission-count properties across whole runs, the
logical queue content is paired with ghost entry identities: a TEntry is an
EnhancedCommand plus an identifier that names the enqueue event it came from.
The step functions below mirror, branch for branch, the drain-loop iteration
of process_enhanced_queue (src/apu.c lines 328-437), the scan of
process_ack_packet (src/cpu.c lines 408-443) restricted to the logical
window, and a successful queue_command_with_ack (src/apu.c lines 121-153). -/

structure TEntry where
  eid : Nat
  cmd : EnhancedCommand
  deriving Repr, DecidableEq

/-- Drain-loop iteration on the logical queue content, with the identity of
the transmitted or retired entry as the event. -/
def drainT (now : Nat) : List TEntry → List TEntry × DrainEvent
  | [] => ([], .idle)
  | e :: rest =>
    if e.cmd.requires_ack && !e.cmd.completed then
      if now - e.cmd.timestamp > COMMAND_TIMEOUT_MS then
        if e.cmd.retry_count < MAX_RETRIES then
          ({ e with cmd := { e.cmd with retry_count := e.cmd.retry_count + 1, timestamp := now } } :: rest,
           .sent (enhancedWireBytes e.cmd))
        else (rest, .retired e.cmd.command_id)
      else (e :: rest, .idle)
    else (rest, .sent (enhancedWireBytes e.cmd))

/-- Identity of the entry a drain-loop iteration hands to the link driver,
if any: the head entry, on both the retry path and the reap path. -/
def drainSentId (now : Nat) : List TEntry → Option Nat
  | [] => none
  | e :: _ =>
    if e.cmd.requires_ack && !e.cmd.completed then
      if now - e.cmd.timestamp > COMMAND_TIMEOUT_MS then
        if e.cmd.retry_count < MAX_RETRIES then some e.eid else none
      else none
    else some e.eid

/-- Acknowledgment scan on the logical queue content: mark the oldest
matching entry completed. -/
def ackT (c : Nat) : List TEntry → List TEntry
  | [] => []
  | e :: rest =>
    if ackMatches c e.cmd then { e with cmd := { e.cmd with completed := true } } :: rest
    else e :: ackT c rest

/-- A queue state together with the log of identities handed to the link
driver, in transmission order. -/
structure TState where
  q : List TEntry
  log : List Nat
  deriving Repr, DecidableEq

/-- One protocol step on a destination queue: a drain-loop iteration at some
time, an inbound acknowledgment, or a successful enqueue of a fresh command
(queue_command_with_ack stores retry_count 0 and completed false; the ghost
identifier of a new enqueue names a new command, hence is fresh). -/
inductive QStep : TState → TState → Prop
  | drain (now : Nat) (s : TState) :
      QStep s ⟨(drainT now s.q).1, s.log ++ (drainSentId now s.q).toList⟩
  | ack (c : Nat) (s : TState) : QStep s ⟨ackT c s.q, s.log⟩
  | enqueue (e : TEntry) (s : TState)
      (hrc : e.cmd.retry_count = 0) (hcomp : e.cmd.completed = false)
      (hfresh : e.eid ∉ s.q.map TEntry.eid) (hlog : e.eid ∉ s.log) :
      QStep s ⟨s.q ++ [e], s.log⟩

/-- Reachability in zero or more protocol steps. -/
def QReach : TState → TState → Prop := Relation.ReflTransGen QStep

/-- Ghost identities of the queue content, head first. -/
def ids (l : List TEntry) : List Nat := l.map TEntry.eid

/-- Position of the first occurrence of a value in a list (length if absent). -/
def idxOf (a : Nat) : List Nat → Nat
  | [] => 0
  | b :: t => if b = a then 0 else idxOf a t + 1

lemma idxOf_lt_length {a : Nat} {l : List Nat} (h : a ∈ l) : idxOf a l < l.length := by
  induction l with
  | nil => cases h
  | cons b t ih =>
    by_cases hb : b = a
    · simp [idxOf, hb]
    · rcases List.mem_cons.mp h with h' | h'
      · exact absurd h'.symm hb
      · simp only [idxOf, hb, if_false, List.length_cons]
        exact Nat.succ_lt_succ (ih h')

lemma idxOf_append_left {a : Nat} {l1 : List Nat} (l2 : List Nat) (h : a ∈ l1) :
    idxOf a (l1 ++ l2) = idxOf a l1 := by
  induction l1 with
  | nil => cases h
  | cons b t ih =>
    by_cases hb : b = a
    · simp [idxOf, hb]
    · rcases List.mem_cons.mp h with h' | h'
      · exact absurd h'.symm hb
      · simp only [List.cons_append, idxOf, hb, if_false, List.append_eq]
        rw [ih h']

lemma idxOf_append_right {a : Nat} {l1 : List Nat} (l2 : List Nat) (h : a ∉ l1) :
    idxOf a (l1 ++ l2) = l1.length + idxOf a l2 := by
  induction l1 with
  | nil => simp
  | cons b t ih =>
    have hb : b ≠ a := fun hc => h (hc ▸ List.mem_cons_self b t)
    simp only [List.cons_append, idxOf, hb, if_false, List.length_cons, List.append_eq]
    rw [ih fun hc => h (List.mem_cons_of_mem b hc)]
    omega

/-- The acknowledgment scan changes only the completed flag of one entry:
identities and retry counts are untouched, position for position. -/
lemma ackT_map_pair (c : Nat) (l : List TEntry) :
    (ackT c l).map (fun e => (e.eid, e.cmd.retry_count))
      = l.map (fun e => (e.eid, e.cmd.retry_count)) := by
  induction l with
  | nil => rfl
  | cons e rest ih =>
    rw [ackT]
    split_ifs with h
    · simp
    · simp [ih]

lemma ids_ackT (c : Nat) (l : List TEntry) : ids (ackT c l) = ids l := by
  have h := congrArg (List.map Prod.fst) (ackT_map_pair c l)
  simpa [List.map_map, ids, Function.comp] using h

lemma ackT_mem_pair {c : Nat} {l : List TEntry} {e' : TEntry} (h : e' ∈ ackT c l) :
    ∃ e ∈ l, e.eid = e'.eid ∧ e.cmd.retry_count = e'.cmd.retry_count := by
  have hm : (e'.eid, e'.cmd.retry_count)
      ∈ l.map (fun e => (e.eid, e.cmd.retry_count)) := by
    rw [← ackT_map_pair c l]
    exact List.mem_map_of_mem _ h
  obtain ⟨e, he, hpe⟩ := List.mem_map.mp hm
  exact ⟨e, he, congrArg Prod.fst hpe, congrArg Prod.snd hpe⟩

lemma count_append_one (l : List Nat) (a x : Nat) :
    (l ++ [a]).count x = l.count x + (if a = x then 1 else 0) := by
  simp [List.count_append, List.count_singleton']

/-! ## Per-command transmission bound -/

/-- Run invariant for the transmission-count bound: identities are unique,
an entry still queued has been handed to the link at most retry_count times
with retry_count at most MAX_RETRIES, and a no-longer-queued identity has
been handed to the link at most MAX_RETRIES + 1 times. -/
def SendBoundInv (s : TState) : Prop :=
  (ids s.q).Nodup ∧
  (∀ e ∈ s.q, s.log.count e.eid ≤ e.cmd.retry_count ∧
    e.cmd.retry_count ≤ MAX_RETRIES) ∧
  (∀ i, i ∉ ids s.q → s.log.count i ≤ MAX_RETRIES + 1)

lemma MAX_RETRIES_eq : MAX_RETRIES = 3 := rfl

lemma mem_ids_cons {i : Nat} {e : TEntry} {l : List TEntry} :
    i ∈ ids (e :: l) ↔ i = e.eid ∨ i ∈ ids l := by
  simp [ids, eq_comm]

lemma nodup_ids_cons {e : TEntry} {l : List TEntry} (h : (ids (e :: l)).Nodup) :
    e.eid ∉ ids l ∧ (ids l).Nodup := by
  simp only [ids, List.map_cons, List.nodup_cons] at h
  exact h

lemma sendBoundInv_step {s s' : TState} (hstep : QStep s s')
    (hinv : SendBoundInv s) : SendBoundInv s' := by
  obtain ⟨hnd, hg, hh⟩ := hinv
  cases hstep with
  | drain now =>
    cases hq : s.q with
    | nil =>
      rw [hq] at hh
      simp only [SendBoundInv, drainT, drainSentId, hq, Option.toList_none,
        List.append_nil]
      exact ⟨by simp [ids], by simp, fun i _ => hh i (by simp [ids])⟩
    | cons e rest =>
      rw [hq] at hnd hg hh
      obtain ⟨hhead, hndrest⟩ := nodup_ids_cons hnd
      have hrest : ∀ x ∈ rest, e.eid ≠ x.eid := fun x hx hc =>
        hhead (hc ▸ List.mem_map_of_mem TEntry.eid hx)
      have hge := hg e (List.mem_cons_self e rest)
      have hgr : ∀ x ∈ rest, s.log.count x.eid ≤ x.cmd.retry_count ∧
          x.cmd.retry_count ≤ MAX_RETRIES :=
        fun x hx => hg x (List.mem_cons_of_mem e hx)
      by_cases h1 : (e.cmd.requires_ack && !e.cmd.completed) = true
      · by_cases h2 : now - e.cmd.timestamp > COMMAND_TIMEOUT_MS
        · by_cases h3 : e.cmd.retry_count < MAX_RETRIES
          · -- retry: head updated in place, its identity logged once more
            have hT : (drainT now (e :: rest)).1
                = { e with cmd := { e.cmd with retry_count := e.cmd.retry_count + 1, timestamp := now } } :: rest := by
              simp [drainT, h1, h2, h3]
            have hS : drainSentId now (e :: rest) = some e.eid := by
              simp [drainSentId, h1, h2, h3]
            rw [hT, hS]
            simp only [SendBoundInv, Option.toList_some]
            refine ⟨by simpa [ids] using hnd, ?_, ?_⟩
            · intro x hx
              rcases List.mem_cons.mp hx with hx' | hx'
              · subst hx'
                refine ⟨?_, ?_⟩
                · show (s.log ++ [e.eid]).count e.eid ≤ e.cmd.retry_count + 1
                  rw [count_append_one, if_pos rfl]
                  omega
                · show e.cmd.retry_count + 1 ≤ MAX_RETRIES
                  rw [MAX_RETRIES_eq]
                  rw [MAX_RETRIES_eq] at h3
                  omega
              · have hx2 := hgr x hx'
                have hcnt : (s.log ++ [e.eid]).count x.eid = s.log.count x.eid := by
                  rw [count_append_one, if_neg (hrest x hx')]
                  omega
                rw [hcnt]
                exact hx2
            · intro i hi
              rw [mem_ids_cons] at hi
              push_neg at hi
              have hie : i ≠ e.eid := by
                simpa using hi.1
              have hcnt : (s.log ++ [e.eid]).count i = s.log.count i := by
                rw [count_append_one, if_neg fun hc => hie hc.symm]
                omega
              rw [hcnt]
              exact hh i fun hc => by
                rcases mem_ids_cons.mp hc with h | h
                · exact hie h
                · exact hi.2 h
          · -- retire: head removed without transmission
            have hT : (drainT now (e :: rest)).1 = rest := by
              simp [drainT, h1, h2, h3]
            have hS : drainSentId now (e :: rest) = none := by
              simp [drainSentId, h1, h2, h3]
            rw [hT, hS]
            simp only [SendBoundInv, Option.toList_none, List.append_nil]
            refine ⟨hndrest, hgr, ?_⟩
            intro i hi
            by_cases hie : i = e.eid
            · subst hie
              rw [MAX_RETRIES_eq] at *
              omega
            · exact hh i fun hc => by
                rcases mem_ids_cons.mp hc with h | h
                · exact hie h
                · exact hi h
        · -- still within the timeout window: no change
          have hT : (drainT now (e :: rest)).1 = e :: rest := by
            simp [drainT, h1, h2]
          have hS : drainSentId now (e :: rest) = none := by
            simp [drainSentId, h1, h2]
          rw [hT, hS]
          simp only [SendBoundInv, Option.toList_none, List.append_nil]
          exact ⟨hnd, hg, hh⟩
      · -- reap: completed or no-acknowledgment head transmitted and removed
        have hT : (drainT now (e :: rest)).1 = rest := by
          simp [drainT, h1]
        have hS : drainSentId now (e :: rest) = some e.eid := by
          simp [drainSentId, h1]
        rw [hT, hS]
        simp only [SendBoundInv, Option.toList_some]
        refine ⟨hndrest, ?_, ?_⟩
        · intro x hx
          have hx2 := hgr x hx
          have hcnt : (s.log ++ [e.eid]).count x.eid = s.log.count x.eid := by
            rw [count_append_one, if_neg (hrest x hx)]
            omega
          rw [hcnt]
          exact hx2
        · intro i hi
          by_cases hie : i = e.eid
          · subst hie
            have hcnt : (s.log ++ [e.eid]).count e.eid = s.log.count e.eid + 1 := by
              rw [count_append_one, if_pos rfl]
            rw [hcnt, MAX_RETRIES_eq] at *
            omega
          · have hcnt : (s.log ++ [e.eid]).count i = s.log.count i := by
              rw [count_append_one, if_neg fun hc => hie hc.symm]
              omega
            rw [hcnt]
            exact hh i fun hc => by
              rcases mem_ids_cons.mp hc with h | h
              · exact hie h
              · exact hi h
  | ack c =>
    refine ⟨by simpa [ids_ackT] using hnd, ?_, ?_⟩
    · intro x hx
      obtain ⟨y, hy, hey, hry⟩ := ackT_mem_pair hx
      have := hg y hy
      rw [hey, hry] at this
      exact this
    · intro i hi
      exact hh i (by simpa [ids_ackT] using hi)
  | enqueue e _ hrc hcomp hfresh hlog =>
    refine ⟨?_, ?_, ?_⟩
    · simp only [ids, List.map_append, List.map_cons, List.map_nil]
      simp [List.nodup_append]
      exact ⟨by simpa [ids] using hnd, by simpa [ids] using hfresh⟩
    · intro x hx
      rcases List.mem_append.mp hx with hx' | hx'
      · exact hg x hx'
      · have hx'' : x = e := by simpa using hx'
        subst hx''
        constructor
        · rw [hrc]
          simpa [List.count_eq_zero] using hlog
        · rw [hrc]; exact Nat.zero_le _
    · intro i hi
      refine hh i fun hc => hi ?_
      simp only [ids, List.map_append] at *
      exact List.mem_append_left _ hc

lemma sendBoundInv_reach {s0 s : TState} (h : QReach s0 s)
    (h0 : SendBoundInv s0) : SendBoundInv s := by
  have h' : Relation.ReflTransGen QStep s0 s := h
  clear h
  induction h' with
  | refl => exact h0
  | tail _ hstep ih => exact sendBoundInv_step hstep ih

/-! ## FIFO order of transmissions -/

lemma ids_cons (x : TEntry) (l : List TEntry) : ids (x :: l) = x.eid :: ids l := rfl

lemma ids_append (l1 l2 : List TEntry) : ids (l1 ++ l2) = ids l1 ++ ids l2 :=
  List.map_append _ _ _

lemma idxOf_cons_ne {x a : Nat} (t : List Nat) (h : x ≠ a) :
    idxOf a (x :: t) = idxOf a t + 1 := by
  simp [idxOf, h]

/-- Run invariant for the no-overtaking guarantee, for two identities a and b
with a ahead of b: identities are unique; once b has been transmitted so has
a; a leaves the queue only after being transmitted; any entry that has
retried has been transmitted; and while both are queued, either a was already
transmitted or a sits strictly closer to the head than b. -/
def FifoInv (a b : Nat) (s : TState) : Prop :=
  a ≠ b ∧
  (ids s.q).Nodup ∧
  (b ∈ s.log → a ∈ s.log) ∧
  (a ∉ ids s.q → a ∈ s.log) ∧
  (∀ e ∈ s.q, 0 < e.cmd.retry_count → e.eid ∈ s.log) ∧
  (b ∈ ids s.q → a ∈ ids s.q → a ∈ s.log ∨ idxOf a (ids s.q) < idxOf b (ids s.q))

/-- When the head entry is handed to the link, the identity ahead of it must
already be in the log. -/
lemma head_send_log {a b : Nat} {e : TEntry} {rest : List TEntry} {log : List Nat}
    (hb : b = e.eid)
    (hc : a ∉ ids (e :: rest) → a ∈ log)
    (hf : b ∈ ids (e :: rest) → a ∈ ids (e :: rest) →
      a ∈ log ∨ idxOf a (ids (e :: rest)) < idxOf b (ids (e :: rest))) :
    a ∈ log := by
  by_cases haq : a ∈ ids (e :: rest)
  · have hbq : b ∈ ids (e :: rest) := mem_ids_cons.mpr (Or.inl hb)
    rcases hf hbq haq with h | h
    · exact h
    · exfalso
      have hzero : idxOf b (ids (e :: rest)) = 0 := by
        rw [ids_cons, hb]
        simp [idxOf]
      omega
  · exact hc haq

lemma fifoInv_step {a b : Nat} {s s' : TState} (hstep : QStep s s')
    (hinv : FifoInv a b s) : FifoInv a b s' := by
  obtain ⟨hab, hnd, hba, hc, hd, hf⟩ := hinv
  cases hstep with
  | drain now =>
    cases hq : s.q with
    | nil =>
      rw [hq] at hnd hc hd hf
      simp only [FifoInv, drainT, drainSentId, hq, Option.toList_none,
        List.append_nil]
      exact ⟨hab, by simp [ids], hba, fun _ => hc (by simp [ids]), by simp,
        by simp [ids]⟩
    | cons e rest =>
      rw [hq] at hnd hc hd hf
      obtain ⟨hhead, hndrest⟩ := nodup_ids_cons hnd
      have hde := hd e (List.mem_cons_self e rest)
      have hdr : ∀ x ∈ rest, 0 < x.cmd.retry_count → x.eid ∈ s.log :=
        fun x hx => hd x (List.mem_cons_of_mem e hx)
      by_cases h1 : (e.cmd.requires_ack && !e.cmd.completed) = true
      · by_cases h2 : now - e.cmd.timestamp > COMMAND_TIMEOUT_MS
        · by_cases h3 : e.cmd.retry_count < MAX_RETRIES
          · -- retry: head stays, its identity is logged
            have hT : (drainT now (e :: rest)).1
                = { e with cmd := { e.cmd with retry_count := e.cmd.retry_count + 1, timestamp := now } } :: rest := by
              simp [drainT, h1, h2, h3]
            have hS : drainSentId now (e :: rest) = some e.eid := by
              simp [drainSentId, h1, h2, h3]
            rw [hT, hS]
            simp only [FifoInv, Option.toList_some]
            refine ⟨hab, hnd, ?_, ?_, ?_, ?_⟩
            · intro hbL
              rcases List.mem_append.mp hbL with h | h
              · exact List.mem_append_left _ (hba h)
              · exact List.mem_append_left _
                  (head_send_log (by simpa using h) hc hf)
            · intro ha
              exact List.mem_append_left _ (hc ha)
            · intro x hx
              rcases List.mem_cons.mp hx with hx' | hx'
              · subst hx'
                intro _
                simp
              · intro hx0
                exact List.mem_append_left _ (hdr x hx' hx0)
            · intro hbq haq
              rcases hf hbq haq with h | h
              · exact Or.inl (List.mem_append_left _ h)
              · exact Or.inr h
          · -- retire: head removed, identity already logged by its retries
            have hT : (drainT now (e :: rest)).1 = rest := by
              simp [drainT, h1, h2, h3]
            have hS : drainSentId now (e :: rest) = none := by
              simp [drainSentId, h1, h2, h3]
            rw [hT, hS]
            simp only [FifoInv, Option.toList_none, List.append_nil]
            have hpos : 0 < e.cmd.retry_count := by
              rw [MAX_RETRIES_eq] at h3
              omega
            refine ⟨hab, hndrest, hba, ?_, hdr, ?_⟩
            · intro ha
              by_cases hae : a = e.eid
              · exact hae ▸ hde hpos
              · exact hc fun hcq => (by
                  rcases mem_ids_cons.mp hcq with h | h
                  · exact hae h
                  · exact ha h)
            · intro hbq haq
              have hea : e.eid ≠ a := fun hcq => hhead (hcq ▸ haq)
              have heb : e.eid ≠ b := fun hcq => hhead (hcq ▸ hbq)
              rcases hf (mem_ids_cons.mpr (Or.inr hbq))
                  (mem_ids_cons.mpr (Or.inr haq)) with h | h
              · exact Or.inl h
              · refine Or.inr ?_
                rw [ids_cons, idxOf_cons_ne _ hea, idxOf_cons_ne _ heb] at h
                omega
        · -- still within the timeout window: unchanged
          have hT : (drainT now (e :: rest)).1 = e :: rest := by
            simp [drainT, h1, h2]
          have hS : drainSentId now (e :: rest) = none := by
            simp [drainSentId, h1, h2]
          rw [hT, hS]
          simp only [FifoInv, Option.toList_none, List.append_nil]
          exact ⟨hab, hnd, hba, hc, hd, hf⟩
      · -- reap: head transmitted and removed
        have hT : (drainT now (e :: rest)).1 = rest := by
          simp [drainT, h1]
        have hS : drainSentId now (e :: rest) = some e.eid := by
          simp [drainSentId, h1]
        rw [hT, hS]
        simp only [FifoInv, Option.toList_some]
        refine ⟨hab, hndrest, ?_, ?_, ?_, ?_⟩
        · intro hbL
          rcases List.mem_append.mp hbL with h | h
          · exact List.mem_append_left _ (hba h)
          · exact List.mem_append_left _ (head_send_log (by simpa using h) hc hf)
        · intro ha
          by_cases hae : a = e.eid
          · subst hae
            simp
          · refine List.mem_append_left _ (hc fun hcq => ?_)
            rcases mem_ids_cons.mp hcq with h | h
            · exact hae h
            · exact ha h
        · intro x hx hx0
          exact List.mem_append_left _ (hdr x hx hx0)
        · intro hbq haq
          have hea : e.eid ≠ a := fun hcq => hhead (hcq ▸ haq)
          have heb : e.eid ≠ b := fun hcq => hhead (hcq ▸ hbq)
          rcases hf (mem_ids_cons.mpr (Or.inr hbq))
              (mem_ids_cons.mpr (Or.inr haq)) with h | h
          · exact Or.inl (List.mem_append_left _ h)
          · refine Or.inr ?_
            rw [ids_cons, idxOf_cons_ne _ hea, idxOf_cons_ne _ heb] at h
            omega
  | ack c =>
    refine ⟨hab, by simpa [ids_ackT] using hnd, hba, ?_, ?_, ?_⟩
    · intro ha
      exact hc (by simpa [ids_ackT] using ha)
    · intro x hx hx0
      obtain ⟨y, hy, hey, hry⟩ := ackT_mem_pair hx
      exact hey ▸ hd y hy (hry ▸ hx0)
    · intro hbq haq
      rw [show ids (ackT c s.q) = ids s.q from ids_ackT c s.q] at hbq haq ⊢
      exact hf hbq haq
  | enqueue e _ hrc hcomp hfresh hlog =>
    refine ⟨hab, ?_, hba, ?_, ?_, ?_⟩
    · rw [ids_append]
      simp [List.nodup_append]
      exact ⟨hnd, by simpa [ids] using hfresh⟩
    · intro ha
      rw [ids_append] at ha
      exact hc fun hcq => ha (List.mem_append_left _ hcq)
    · intro x hx hx0
      rcases List.mem_append.mp hx with hx' | hx'
      · exact hd x hx' hx0
      · have hx'' : x = e := by simpa using hx'
        subst hx''
        rw [hrc] at hx0
        omega
    · intro hbq haq
      rw [ids_append] at hbq haq ⊢
      have hfr : e.eid ∉ ids s.q := hfresh
      rcases List.mem_append.mp hbq with hb' | hb'
      · rcases List.mem_append.mp haq with ha' | ha'
        · rcases hf hb' ha' with h | h
          · exact Or.inl h
          · refine Or.inr ?_
            rw [idxOf_append_left _ ha', idxOf_append_left _ hb']
            exact h
        · -- a is the fresh identity: impossible, it would already be logged
          exfalso
          have hae : a = e.eid := by simpa [ids] using ha'
          exact hlog (hae ▸ hc (hae ▸ hfr))
      · have hbe : b = e.eid := by simpa [ids] using hb'
        rcases List.mem_append.mp haq with ha' | ha'
        · refine Or.inr ?_
          rw [idxOf_append_left _ ha', idxOf_append_right _ (hbe ▸ hfr)]
          have h1 := idxOf_lt_length ha'
          have h2 : idxOf b (ids [e]) = 0 := by
            simp [ids, idxOf, hbe]
          rw [show ids [e] = [e.eid] from rfl] at h2
          rw [show ids [e] = [e.eid] from rfl]
          omega
        · exfalso
          have hae : a = e.eid := by simpa [ids] using ha'
          have hbe : b = e.eid := hbe
          exact hab (hae.trans hbe.symm)

lemma fifoInv_reach {a b : Nat} {s0 s : TState} (h : QReach s0 s)
    (h0 : FifoInv a b s0) : FifoInv a b s := by
  have h' : Relation.ReflTransGen QStep s0 s := h
  clear h
  induction h' with
  | refl => exact h0
  | tail _ hstep ih => exact fifoInv_step hstep ih

/-! ## Claim theorems -/

/-- C4.  The clock-sync beacon is 10 bytes, but the master encodes only the
four timestamp bytes at shifts 32..8 (the low byte is never transmitted),
while the slave reconstructs a 40-bit value from nine payload bytes although
the beacon carries only eight; the ninth byte read is beyond the transmitted
payload (modelled here as the byte g that happens to follow in the receive
buffer, shown here for the garbage bytes 0 and 7).  For frame 42 and master
timestamp 0x0102030405 the slave recovers 0x0102030400 + g for garbage byte
g, which differs from the master's low 40 bits whenever g is not 5, refuting
the claim that the extracted timestamp always equals the encoded one. -/
theorem clock_sync_codec_mismatch :
    send_clock_sync_packet 42 0x0102030405
      = [0xF1, 10, 0, 0, 0, 42, 1, 2, 3, 4]
    ∧ (send_clock_sync_packet 42 0x0102030405).length = 10
    ∧ clock_sync_frame ((send_clock_sync_packet 42 0x0102030405).drop 2) = 42
    ∧ clock_sync_timestamp ((send_clock_sync_packet 42 0x0102030405).drop 2 ++ [0])
        = 0x0102030400
    ∧ clock_sync_timestamp ((send_clock_sync_packet 42 0x0102030405).drop 2 ++ [7])
        = 0x0102030407
    ∧ 0x0102030400 ≠ 0x0102030405 % 2 ^ 40
    ∧ 0x0102030407 ≠ 0x0102030405 % 2 ^ 40 := by
  decide

/-- C5 counterexample.  The master's ErrorCode enumeration in src/cpu.c
assigns 3 to memory-full, 4 to invalid-parameter and 5 to device-busy, so the
claimed assignment (3 invalid-params, 4 busy, 5 memory-exhausted) is false on
that node. -/
theorem error_code_counterexample :
    cpuErrorCodeVal .errInvalidParameter = 4
    ∧ cpuErrorCodeVal .errDeviceBusy = 5
    ∧ cpuErrorCodeVal .errMemoryFull = 3
    ∧ ¬(cpuErrorCodeVal .errInvalidParameter = 3
        ∧ cpuErrorCodeVal .errDeviceBusy = 4
        ∧ cpuErrorCodeVal .errMemoryFull = 5) := by
  decide

/-- C5 amended.  The actual enumerations: src/cpu.c uses 0 none, 1 timeout,
2 invalid-command, 3 memory-full, 4 invalid-parameter, 5 busy,
6 communication-failure, 7 sync-lost; src/TriBoySimple/common.h defines only
0 none, 1 timeout, 2 invalid-command, 3 invalid-params, 4 busy. -/
theorem error_code_values :
    cpuErrorCodeVal .errNone = 0 ∧ cpuErrorCodeVal .errTimeout = 1
    ∧ cpuErrorCodeVal .errInvalidCommand = 2 ∧ cpuErrorCodeVal .errMemoryFull = 3
    ∧ cpuErrorCodeVal .errInvalidParameter = 4 ∧ cpuErrorCodeVal .errDeviceBusy = 5
    ∧ cpuErrorCodeVal .errCommunicationFailure = 6 ∧ cpuErrorCodeVal .errSyncLost = 7
    ∧ simpleErrorCodeVal .errNone = 0 ∧ simpleErrorCodeVal .errTimeout = 1
    ∧ simpleErrorCodeVal .errInvalidCommand = 2
    ∧ simpleErrorCodeVal .errInvalidParams = 3
    ∧ simpleErrorCodeVal .errBusy = 4 := by
  decide

/-- C7.  A header with length byte below 2 is not rejected: both slave main
loops consume no further payload bytes but still dispatch process_command,
with the uint8_t payload-count argument wrapped around to 255 (length 1) or
254 (length 0) instead of failing as the claim requires. -/
theorem short_header_dispatch :
    simple_gpu_receive 0 1
      = { consumed_payload := 0, dispatched := some (0, 255) }
    ∧ gpu_main_receive 0 1
      = { consumed_payload := 0, dispatched := some (0, 255) }
    ∧ simple_gpu_receive 0 0
      = { consumed_payload := 0, dispatched := some (0, 254) }
    ∧ (simple_gpu_receive 0 1).dispatched ≠ none := by
  decide

/-- C8 counterexample.  In src/cpu.c's check_for_device_responses a 4-byte
response with opcode 0xFB matches neither the 0xFA nor the 0xFE case and is
dropped with no action, so that master raises no frame event for in-band
VSYNC packets. -/
theorem inband_vsync_counterexample :
    check_for_device_responses_dispatch [0xFB, 4, 0, 0]
      = CpuResponseAction.ignored := by
  decide

/-- C8 amended.  The TriBoySimple master raises the frame event
(vsync_received) for every 0xFB response on the GPU link, ignoring the two
argument bytes, while the full master in src/cpu.c ignores such packets
entirely (that master observes VSYNC through the dedicated pin interrupt
instead). -/
theorem inband_vsync_amended (a1 a2 : Nat) :
    simple_process_gpu_response [0xFB, 4, a1, a2]
      = SimpleGpuResponseAction.vsyncRaised
    ∧ check_for_device_responses_dispatch [0xFB, 4, a1, a2]
      = CpuResponseAction.ignored :=
  ⟨rfl, rfl⟩

/-- C6.  Enqueue on a full ring (count equal to capacity) returns false and
leaves the queue bit-for-bit unchanged; enqueue on a non-full ring returns
true and appends exactly one entry at the tail of the logical window, which
for the acknowledgment-tracking queue carries retry_count 0, timestamp now
and completed false. -/
theorem enqueue_spec :
    (∀ (q : CommandQueue) (cmd_id length : Nat) (data : List Nat), q.WF →
      (q.capacity ≤ q.count → queue_gpu_command q cmd_id length data = (q, false))
      ∧ (q.count < q.capacity →
          (queue_gpu_command q cmd_id length data).2 = true
          ∧ (queue_gpu_command q cmd_id length data).1.window
              = q.window ++ [{ command_id := cmd_id, length := length,
                               data := data.take (length - 2) }]))
    ∧ (∀ (q : EnhancedCommandQueue) (cmd_id length : Nat) (data : List Nat)
        (needs_ack : Bool) (now : Nat), q.WF →
      (q.capacity ≤ q.count →
        queue_command_with_ack q cmd_id length data needs_ack now = (q, false))
      ∧ (q.count < q.capacity →
          (queue_command_with_ack q cmd_id length data needs_ack now).2 = true
          ∧ (queue_command_with_ack q cmd_id length data needs_ack now).1.window
              = q.window ++ [{ command_id := cmd_id, length := length,
                               data := data.take (length - 2),
                               requires_ack := needs_ack, timestamp := now,
                               retry_count := 0, completed := false }])) := by
  constructor
  · intro q cmd_id length data hWF
    obtain ⟨hcap, hlen, hcount, hhead, htail, heq⟩ := hWF
    constructor
    · intro hfull
      simp only [queue_gpu_command]
      rw [if_pos hfull]
    · intro hlt
      have hnot : ¬(q.count ≥ q.capacity) := Nat.not_le.mpr hlt
      simp only [queue_gpu_command]
      rw [if_neg hnot]
      refine ⟨rfl, ?_⟩
      show windowAux (q.commands.set q.tail _) q.capacity q.head (q.count + 1)
        = windowAux q.commands q.capacity q.head q.count ++ _
      rw [heq]
      exact window_set_tail_append _ _ _ _ _ hlen hhead hlt
  · intro q cmd_id length data needs_ack now hWF
    obtain ⟨hcap, hlen, hcount, hhead, htail, heq⟩ := hWF
    constructor
    · intro hfull
      simp only [queue_command_with_ack]
      rw [if_pos hfull]
    · intro hlt
      have hnot : ¬(q.count ≥ q.capacity) := Nat.not_le.mpr hlt
      simp only [queue_command_with_ack]
      rw [if_neg hnot]
      refine ⟨rfl, ?_⟩
      show windowAux (q.commands.set q.tail _) q.capacity q.head (q.count + 1)
        = windowAux q.commands q.capacity q.head q.count ++ _
      rw [heq]
      exact window_set_tail_append _ _ _ _ _ hlen hhead hlt

/-- C6 witness: a full two-slot ring rejects the enqueue unchanged, and a
fresh ring accepts it. -/
theorem enqueue_spec_witness :
    queue_gpu_command ⟨[default, default], 2, 0, 0, 2⟩ 7 3 [9]
      = (⟨[default, default], 2, 0, 0, 2⟩, false)
    ∧ (queue_command_with_ack ⟨[default, default], 2, 0, 0, 0, 0⟩ 7 3 [9] true 5).2
      = true :=
  ⟨(enqueue_spec.1 ⟨[default, default], 2, 0, 0, 2⟩ 7 3 [9] (by decide)).1
      (by decide),
   ((enqueue_spec.2 ⟨[default, default], 2, 0, 0, 0, 0⟩ 7 3 [9] true 5
      (by decide)).2 (by decide)).1⟩

/-- C1.  The acknowledgment router completes at most one entry: scanning from
the head, the oldest entry whose opcode matches the packet's byte 2, which
requires an acknowledgment and is not yet completed, is marked completed and
everything else (including head, tail, count, capacity and the other slots)
is unchanged; when no entry matches - in particular for a duplicate ACK whose
target is already completed - the whole queue is returned unchanged. -/
theorem process_ack_packet_completes_oldest (q : EnhancedCommandQueue)
    (packet : List Nat) (hWF : q.WF) :
    (process_ack_packet q packet).head = q.head
    ∧ (process_ack_packet q packet).tail = q.tail
    ∧ (process_ack_packet q packet).count = q.count
    ∧ (process_ack_packet q packet).capacity = q.capacity
    ∧ (process_ack_packet q packet).pending_acks = q.pending_acks
    ∧ ((∀ e ∈ q.window, ackMatches (packet.getD 2 0) e = false) →
        process_ack_packet q packet = q)
    ∧ (∀ l1 e l2, q.window = l1 ++ e :: l2 →
        (∀ x ∈ l1, ackMatches (packet.getD 2 0) x = false) →
        ackMatches (packet.getD 2 0) e = true →
        (process_ack_packet q packet).window
          = l1 ++ { e with completed := true } :: l2) := by
  obtain ⟨hcap, hlen, hcount, hhead, htail, heq⟩ := hWF
  refine ⟨rfl, rfl, rfl, rfl, rfl, ?_, ?_⟩
  · intro hnom
    have h := ack_scan_nomatch q.commands q.capacity (packet.getD 2 0)
      q.head q.count hhead hnom
    show { q with commands := ack_scan q.commands q.capacity (packet.getD 2 0) q.head q.count } = q
    rw [h]
  · intro l1 e l2 hdecomp h1 he
    have h := (ack_scan_spec q.commands q.capacity (packet.getD 2 0)
      q.count q.head hlen hcount hhead).1
    show windowAux (ack_scan q.commands q.capacity (packet.getD 2 0) q.head q.count)
      q.capacity q.head q.count = _
    rw [h]
    have hw : windowAux q.commands q.capacity q.head q.count = l1 ++ e :: l2 :=
      hdecomp
    rw [hw, listComplete_decomp _ _ _ _ h1 he]

/-- C1 witness: a queue holding an already-completed entry for opcode 5 ahead
of an incomplete one; the ACK skips the completed duplicate and completes
exactly the oldest incomplete match. -/
theorem process_ack_packet_completes_oldest_witness :
    (process_ack_packet
        ⟨[⟨5, 4, [], true, 0, 0, true⟩, ⟨5, 4, [], true, 0, 0, false⟩],
          2, 0, 0, 2, 1⟩
        [0xFA, 4, 5, 0]).window
      = [(⟨5, 4, [], true, 0, 0, true⟩ : EnhancedCommand)]
          ++ { (⟨5, 4, [], true, 0, 0, false⟩ : EnhancedCommand) with
               completed := true } :: [] :=
  (process_ack_packet_completes_oldest
      ⟨[⟨5, 4, [], true, 0, 0, true⟩, ⟨5, 4, [], true, 0, 0, false⟩],
        2, 0, 0, 2, 1⟩
      [0xFA, 4, 5, 0] (by decide)).2.2.2.2.2.2
    [⟨5, 4, [], true, 0, 0, true⟩] ⟨5, 4, [], true, 0, 0, false⟩ []
    (by decide) (by decide) (by decide)

lemma windowAux_headD {α : Type} [Inhabited α] (xs : List α) (cap idx n : Nat)
    (hn : 0 < n) (hidx : idx < cap) :
    (windowAux xs cap idx n).headD default = xs.getD idx default := by
  obtain ⟨m, rfl⟩ : ∃ m, n = m + 1 := ⟨n - 1, by omega⟩
  rw [windowAux_cons, Nat.mod_eq_of_lt hidx]
  rfl

/-- C10.  Every queue operation preserves the ring invariant (count within
capacity, head and tail below capacity, tail = (head + count) mod capacity),
and only the count logical slots between head and tail are read or written:
a drain hands the link exactly the window's head entry, an enqueue writes
only the tail slot, and the acknowledgment scan leaves every slot outside the
window untouched. -/
theorem ring_invariant_preserved :
    (∀ (q : CommandQueue) (cmd_id length : Nat) (data : List Nat),
      q.WF → ((queue_gpu_command q cmd_id length data).1).WF
        ∧ (∀ j, j ≠ q.tail →
            ((queue_gpu_command q cmd_id length data).1).commands.getD j default
              = q.commands.getD j default))
    ∧ (∀ q : CommandQueue, q.WF →
        ((process_gpu_queue_step q).1).WF
        ∧ (0 < q.count →
            (process_gpu_queue_step q).2
              = some (commandWireBytes (q.window.headD default))))
    ∧ (∀ (q : EnhancedCommandQueue) (cmd_id length : Nat) (data : List Nat)
        (needs_ack : Bool) (now : Nat), q.WF →
        ((queue_command_with_ack q cmd_id length data needs_ack now).1).WF
        ∧ (∀ j, j ≠ q.tail →
            ((queue_command_with_ack q cmd_id length data needs_ack now).1).commands.getD j default
              = q.commands.getD j default))
    ∧ (∀ (q : EnhancedCommandQueue) (now : Nat), q.WF →
        ((process_enhanced_queue_step q now).1).WF
        ∧ (∀ bytes, (process_enhanced_queue_step q now).2 = DrainEvent.sent bytes →
            bytes = enhancedWireBytes (q.window.headD default)))
    ∧ (∀ (q : EnhancedCommandQueue) (packet : List Nat), q.WF →
        (process_ack_packet q packet).WF
        ∧ (∀ j, (∀ i < q.count, (q.head + i) % q.capacity ≠ j) →
            (process_ack_packet q packet).commands.getD j default
              = q.commands.getD j default)) := by
  refine ⟨?_, ?_, ?_, ?_, ?_⟩
  · -- queue_gpu_command
    intro q cmd_id length data hWF
    obtain ⟨hcap, hlen, hcount, hhead, htail, heq⟩ := hWF
    by_cases hfull : q.count ≥ q.capacity
    · simp only [queue_gpu_command]
      rw [if_pos hfull]
      exact ⟨⟨hcap, hlen, hcount, hhead, htail, heq⟩, fun j _ => rfl⟩
    · have hlt : q.count < q.capacity := Nat.lt_of_not_le hfull
      simp only [queue_gpu_command]
      rw [if_neg hfull]
      refine ⟨⟨hcap, by rw [List.length_set]; exact hlen,
        by show q.count + 1 ≤ q.capacity; omega,
        hhead, Nat.mod_lt _ hcap, ?_⟩, ?_⟩
      · show (q.tail + 1) % q.capacity = (q.head + (q.count + 1)) % q.capacity
        rw [heq, Nat.mod_add_mod, Nat.add_assoc]
      · intro j hj
        show (q.commands.set q.tail _).getD j default = _
        rw [List.getD_eq_getElem?_getD, List.getElem?_set_ne fun hc => hj hc.symm,
          ← List.getD_eq_getElem?_getD]
  · -- process_gpu_queue_step
    intro q hWF
    obtain ⟨hcap, hlen, hcount, hhead, htail, heq⟩ := hWF
    by_cases hzero : q.count = 0
    · simp only [process_gpu_queue_step]
      rw [if_pos hzero]
      exact ⟨⟨hcap, hlen, hcount, hhead, htail, heq⟩, fun h => absurd hzero (by omega)⟩
    · simp only [process_gpu_queue_step]
      rw [if_neg hzero]
      refine ⟨⟨hcap, hlen, by show q.count - 1 ≤ q.capacity; omega,
        Nat.mod_lt _ hcap, htail, ?_⟩, ?_⟩
      · show q.tail = ((q.head + 1) % q.capacity + (q.count - 1)) % q.capacity
        rw [Nat.mod_add_mod, heq]
        congr 1
        omega
      · intro hpos
        have hw := windowAux_headD q.commands q.capacity q.head q.count hpos hhead
        show some (commandWireBytes (q.commands.getD q.head default))
          = some (commandWireBytes
              ((windowAux q.commands q.capacity q.head q.count).headD default))
        rw [hw]
  · -- queue_command_with_ack
    intro q cmd_id length data needs_ack now hWF
    obtain ⟨hcap, hlen, hcount, hhead, htail, heq⟩ := hWF
    by_cases hfull : q.count ≥ q.capacity
    · simp only [queue_command_with_ack]
      rw [if_pos hfull]
      exact ⟨⟨hcap, hlen, hcount, hhead, htail, heq⟩, fun j _ => rfl⟩
    · have hlt : q.count < q.capacity := Nat.lt_of_not_le hfull
      simp only [queue_command_with_ack]
      rw [if_neg hfull]
      refine ⟨⟨hcap, by rw [List.length_set]; exact hlen,
        by show q.count + 1 ≤ q.capacity; omega,
        hhead, Nat.mod_lt _ hcap, ?_⟩, ?_⟩
      · show (q.tail + 1) % q.capacity = (q.head + (q.count + 1)) % q.capacity
        rw [heq, Nat.mod_add_mod, Nat.add_assoc]
      · intro j hj
        show (q.commands.set q.tail _).getD j default = _
        rw [List.getD_eq_getElem?_getD, List.getElem?_set_ne fun hc => hj hc.symm,
          ← List.getD_eq_getElem?_getD]
  · -- process_enhanced_queue_step
    intro q now hWF
    obtain ⟨hcap, hlen, hcount, hhead, htail, heq⟩ := hWF
    by_cases hzero : q.count = 0
    · simp only [process_enhanced_queue_step]
      rw [if_pos hzero]
      exact ⟨⟨hcap, hlen, hcount, hhead, htail, heq⟩, fun bytes h => by cases h⟩
    · have hpos : 0 < q.count := by omega
      have hwhead := windowAux_headD q.commands q.capacity q.head q.count hpos hhead
      have hcount' : q.count - 1 ≤ q.capacity := by omega
      have hremWF : q.tail = ((q.head + 1) % q.capacity + (q.count - 1)) % q.capacity := by
        rw [Nat.mod_add_mod, heq]
        congr 1
        omega
      simp only [process_enhanced_queue_step]
      rw [if_neg hzero]
      by_cases h1 : ((q.commands.getD q.head default).requires_ack
          && !(q.commands.getD q.head default).completed) = true
      · rw [if_pos h1]
        by_cases h2 : now - (q.commands.getD q.head default).timestamp > COMMAND_TIMEOUT_MS
        · rw [if_pos h2]
          by_cases h3 : (q.commands.getD q.head default).retry_count < MAX_RETRIES
          · rw [if_pos h3]
            refine ⟨⟨hcap, by rw [List.length_set]; exact hlen, hcount, hhead,
              htail, heq⟩, ?_⟩
            intro bytes h
            cases h
            show enhancedWireBytes (q.commands.getD q.head default)
              = enhancedWireBytes
                  ((windowAux q.commands q.capacity q.head q.count).headD default)
            rw [hwhead]
          · rw [if_neg h3]
            exact ⟨⟨hcap, hlen, hcount', Nat.mod_lt _ hcap, htail, hremWF⟩,
              fun bytes h => by cases h⟩
        · rw [if_neg h2]
          exact ⟨⟨hcap, hlen, hcount, hhead, htail, heq⟩,
            fun bytes h => by cases h⟩
      · rw [if_neg h1]
        refine ⟨⟨hcap, hlen, hcount', Nat.mod_lt _ hcap, htail, hremWF⟩, ?_⟩
        intro bytes h
        cases h
        show enhancedWireBytes (q.commands.getD q.head default)
          = enhancedWireBytes
              ((windowAux q.commands q.capacity q.head q.count).headD default)
        rw [hwhead]
  · -- process_ack_packet
    intro q packet hWF
    obtain ⟨hcap, hlen, hcount, hhead, htail, heq⟩ := hWF
    obtain ⟨hwin, hframe, hlen'⟩ := ack_scan_spec q.commands q.capacity
      (packet.getD 2 0) q.count q.head hlen hcount hhead
    exact ⟨⟨hcap,
      by show (ack_scan q.commands q.capacity (packet.getD 2 0) q.head q.count).length = q.capacity
         rw [hlen']; exact hlen,
      hcount, hhead, htail, heq⟩, hframe⟩

/-- C10 witness: the invariant is preserved through an acknowledgment on a
concrete well-formed one-slot ring. -/
theorem ring_invariant_preserved_witness :
    (process_ack_packet ⟨[default], 1, 0, 0, 0, 0⟩ [0xFA, 4, 5, 0]).WF :=
  (ring_invariant_preserved.2.2.2.2 ⟨[default], 1, 0, 0, 0, 0⟩ [0xFA, 4, 5, 0]
    (by decide)).1

/-- C2.  Drain of a requires-ack, not-completed head entry: it is resent
exactly when its timestamp is older than COMMAND_TIMEOUT_MS and the retry
budget remains, incrementing retry_count and refreshing the timestamp; with
the budget exhausted it is instead retired with an error event and removed;
within the window nothing happens.  Moreover, over any run from an empty
queue, one command's bytes are handed to the link at most
MAX_RETRIES + 1 = 4 times (up to MAX_RETRIES timeout retransmissions plus
the final transmission when the entry is reaped). -/
theorem retry_timeout_policy :
    (∀ (q : EnhancedCommandQueue) (now : Nat),
      0 < q.count →
      (q.commands.getD q.head default).requires_ack = true →
      (q.commands.getD q.head default).completed = false →
      (now - (q.commands.getD q.head default).timestamp > COMMAND_TIMEOUT_MS →
        (q.commands.getD q.head default).retry_count < MAX_RETRIES →
        process_enhanced_queue_step q now
          = ({ q with
               commands :=
                 q.commands.set q.head
                   { q.commands.getD q.head default with
                     retry_count :=
                       (q.commands.getD q.head default).retry_count + 1,
                     timestamp := now } },
             DrainEvent.sent (enhancedWireBytes (q.commands.getD q.head default))))
      ∧ (now - (q.commands.getD q.head default).timestamp > COMMAND_TIMEOUT_MS →
        ¬(q.commands.getD q.head default).retry_count < MAX_RETRIES →
        process_enhanced_queue_step q now
          = ({ q with head := (q.head + 1) % q.capacity, count := q.count - 1,
                      pending_acks := q.pending_acks - 1 },
             DrainEvent.retired (q.commands.getD q.head default).command_id))
      ∧ (now - (q.commands.getD q.head default).timestamp ≤ COMMAND_TIMEOUT_MS →
        process_enhanced_queue_step q now = (q, DrainEvent.idle)))
    ∧ (∀ s : TState, QReach ⟨[], []⟩ s → ∀ i : Nat,
        s.log.count i ≤ MAX_RETRIES + 1) := by
  constructor
  · intro q now hpos hra hco
    have hzero : ¬q.count = 0 := by omega
    have h1 : ((q.commands.getD q.head default).requires_ack
        && !(q.commands.getD q.head default).completed) = true := by
      rw [hra, hco]
      rfl
    refine ⟨?_, ?_, ?_⟩
    · intro h2 h3
      simp only [process_enhanced_queue_step]
      rw [if_neg hzero, if_pos h1, if_pos h2, if_pos h3]
    · intro h2 h3
      simp only [process_enhanced_queue_step]
      rw [if_neg hzero, if_pos h1, if_pos h2, if_neg h3]
    · intro hle
      have h2 : ¬(now - (q.commands.getD q.head default).timestamp
          > COMMAND_TIMEOUT_MS) := Nat.not_lt.mpr hle
      simp only [process_enhanced_queue_step]
      rw [if_neg hzero, if_pos h1, if_neg h2]
  · intro s hreach i
    have h0 : SendBoundInv ⟨[], []⟩ := by
      refine ⟨by simp [ids], by simp, ?_⟩
      intro j _
      simp
    obtain ⟨hnd, hg, hh⟩ := sendBoundInv_reach hreach h0
    by_cases hmem : i ∈ ids s.q
    · obtain ⟨e, he, heid⟩ := List.mem_map.mp hmem
      have hge := hg e he
      rw [← heid]
      exact le_trans hge.1 (le_trans hge.2 (Nat.le_succ _))
    · exact hh i hmem

/-- C2 witness: a head entry still inside its 50 ms window leaves the queue
untouched, and the transmission-count bound holds for the empty run. -/
theorem retry_timeout_policy_witness :
    process_enhanced_queue_step
        ⟨[⟨5, 2, [], true, 100, 0, false⟩], 1, 0, 0, 1, 1⟩ 120
      = (⟨[⟨5, 2, [], true, 100, 0, false⟩], 1, 0, 0, 1, 1⟩, DrainEvent.idle)
    ∧ (⟨[], []⟩ : TState).log.count 0 ≤ MAX_RETRIES + 1 :=
  ⟨(retry_timeout_policy.1 ⟨[⟨5, 2, [], true, 100, 0, false⟩], 1, 0, 0, 1, 1⟩ 120
      (by decide) (by decide) (by decide)).2.2 (by decide),
   retry_timeout_policy.2 ⟨[], []⟩ Relation.ReflTransGen.refl 0⟩

/-- C3.  No overtaking: for two entries a (ahead) and b (behind) of the same
queue, over any run of drain, acknowledgment and fresh-enqueue steps, b's
bytes are never handed to the link before a's - whenever b's identity is in
the transmission log, a's already is.  In addition, the drain loop halts at a
requires-ack, not-completed head entry still inside its timeout window, so an
entry behind it cannot be transmitted past it. -/
theorem fifo_no_overtake (a b : Nat) (s0 s : TState)
    (hreach : QReach s0 s) (hlog0 : s0.log = [])
    (hnd0 : (ids s0.q).Nodup)
    (hrc0 : ∀ e ∈ s0.q, e.cmd.retry_count = 0)
    (ha : a ∈ ids s0.q) (hb : b ∈ ids s0.q)
    (hidx : idxOf a (ids s0.q) < idxOf b (ids s0.q)) :
    (b ∈ s.log → a ∈ s.log)
    ∧ (∀ (q : EnhancedCommandQueue) (now : Nat), 0 < q.count →
        (q.commands.getD q.head default).requires_ack = true →
        (q.commands.getD q.head default).completed = false →
        now - (q.commands.getD q.head default).timestamp ≤ COMMAND_TIMEOUT_MS →
        process_enhanced_queue_step q now = (q, DrainEvent.idle)) := by
  constructor
  · have hab : a ≠ b := by
      intro hcontra
      rw [hcontra] at hidx
      omega
    have h0 : FifoInv a b s0 := by
      refine ⟨hab, hnd0, ?_, ?_, ?_, fun _ _ => Or.inr hidx⟩
      · rw [hlog0]
        intro h
        exact absurd h (List.not_mem_nil b)
      · intro hcontra
        exact absurd ha hcontra
      · intro e he hpos
        rw [hrc0 e he] at hpos
        exact absurd hpos (lt_irrefl 0)
    exact (fifoInv_reach hreach h0).2.2.1
  · intro q now hpos hra hco hle
    have hzero : ¬q.count = 0 := by omega
    have h1 : ((q.commands.getD q.head default).requires_ack
        && !(q.commands.getD q.head default).completed) = true := by
      rw [hra, hco]
      rfl
    have h2 : ¬(now - (q.commands.getD q.head default).timestamp
        > COMMAND_TIMEOUT_MS) := Nat.not_lt.mpr hle
    simp only [process_enhanced_queue_step]
    rw [if_neg hzero, if_pos h1, if_neg h2]

/-- C3 witness: a two-entry queue with a ahead of b, and a waiting head entry
that stalls the drain. -/
theorem fifo_no_overtake_witness :
    process_enhanced_queue_step
        ⟨[⟨5, 2, [], true, 100, 0, false⟩], 1, 0, 0, 1, 1⟩ 110
      = (⟨[⟨5, 2, [], true, 100, 0, false⟩], 1, 0, 0, 1, 1⟩, DrainEvent.idle) :=
  (fifo_no_overtake 0 1
      ⟨[⟨0, ⟨1, 2, [], false, 0, 0, false⟩⟩, ⟨1, ⟨2, 2, [], true, 0, 0, false⟩⟩], []⟩
      ⟨[⟨0, ⟨1, 2, [], false, 0, 0, false⟩⟩, ⟨1, ⟨2, 2, [], true, 0, 0, false⟩⟩], []⟩
      Relation.ReflTransGen.refl rfl (by decide) (by decide) (by decide)
      (by decide) (by decide)).2
    ⟨[⟨5, 2, [], true, 100, 0, false⟩], 1, 0, 0, 1, 1⟩ 110 (by decide) (by decide)
    (by decide) (by decide)

/-- C9.  The health-check ping of src/cpu.c transmits opcode 0xF0 (not the
NOP opcode 0x00, despite its own comment) and declares the slave healthy
exactly when the single raw response byte equals 0xAA; a spec-conforming
4-byte ACK reply starting 0xFA with status 0x00 is therefore classified
unhealthy. -/
theorem health_check_divergence :
    check_device_health_ping = [0xF0, 2]
    ∧ check_device_health_ping.getD 0 0 ≠ CMD_NOP
    ∧ check_device_health_success 0xAA = true
    ∧ check_device_health_success 0x00 = false
    ∧ check_device_health_success 0xFA = false := by
  decide

end TriBoy
